import Mathlib

/-!
Verification of the file-effects, routing and tool-execution layers of the
unified-agent SDK.  Each section shallowly embeds one component of the
TypeScript source (workspaces, circuit breaker, tool executor, run
controller, tool-name policy, LRU cache, event bus) as executable Lean
definitions and proves the stated properties about them.
-/

set_option autoImplicit false

namespace UnifiedAgent

/-- File contents are opaque byte arrays. -/
abbrev Bytes := List Nat

/-- The state of a base workspace: each path maps to bytes or is absent. -/
abbrev FsState := String → Option Bytes

/-- `writeFile` on the base workspace. -/
def fsWrite (σ : FsState) (p : String) (c : Bytes) : FsState :=
  fun q => if q = p then some c else σ q

/-- `deletePath` on the base workspace. -/
def fsDelete (σ : FsState) (p : String) : FsState :=
  fun q => if q = p then none else σ q

/-- `renamePath` on the base workspace: the destination receives the source
bytes and the source becomes absent. -/
def fsRename (σ : FsState) (f t : String) : FsState :=
  fun q => if q = t then σ f else if q = f then none else σ q

/-! ## Journal workspace (src/unnamed/part_017) -/

/-- `JournalOp`: the entries recorded by `JournalWorkspace` before each
forward mutation (`before` fields hold prior bytes, `null` when absent). -/
inductive JournalOp where
  | write (path : String) (before : Option Bytes)
  | delete (path : String) (before : Option Bytes)
  | rename (fromPath toPath : String) (beforeFrom beforeTo : Option Bytes)
deriving DecidableEq

/-- A mutating request made through the journal workspace. -/
inductive WsOp where
  | write (path : String) (contents : Bytes)
  | delete (path : String)
  | rename (fromPath toPath : String)
deriving DecidableEq

/-- One mutating call through `JournalWorkspace`: capture the inverse data
(`base.readFile(..).catch(() => null)`), then perform the forward mutation
on the base.  Returns the new base state and the journal entry pushed. -/
def journalStep (σ : FsState) : WsOp → FsState × JournalOp
  | .write p c => (fsWrite σ p c, .write p (σ p))
  | .delete p => (fsDelete σ p, .delete p (σ p))
  | .rename f t => (fsRename σ f t, .rename f t (σ f) (σ t))

/-- Run a sequence of mutations through the journal workspace, collecting
the journal in forward (push) order. -/
def journalRun (σ : FsState) : List WsOp → FsState × List JournalOp
  | [] => (σ, [])
  | op :: rest =>
    let s := journalStep σ op
    let r := journalRun s.1 rest
    (r.1, s.2 :: r.2)

/-- `if (before === null) deletePath else writeFile`: restore a path to a
recorded prior value. -/
def restore (σ : FsState) (p : String) : Option Bytes → FsState
  | none => fsDelete σ p
  | some b => fsWrite σ p b

/-- Undo a single journal entry, as in the body of `rollback()`'s loop:
a `write` restores the prior bytes (or deletes), a `delete` rewrites the
prior bytes when they existed, a `rename` renames back and restores both
endpoints. -/
def undoOp (σ : FsState) : JournalOp → FsState
  | .write p before => restore σ p before
  | .delete p before =>
    match before with
    | none => σ
    | some b => fsWrite σ p b
  | .rename f t bf bt => restore (restore (fsRename σ t f) f bf) t bt

/-- `rollback()`: replay the journal entries in reverse order (the list is
in forward push order, so the tail is undone before the head). -/
def rollbackList (σ : FsState) : List JournalOp → FsState
  | [] => σ
  | e :: rest => undoOp (rollbackList σ rest) e

theorem restore_apply (σ : FsState) (p : String) (b? : Option Bytes) (q : String) :
    restore σ p b? q = if q = p then b? else σ q := by
  cases b? <;> simp [restore, fsDelete, fsWrite]

theorem undo_step (σ : FsState) (op : WsOp) :
    undoOp (journalStep σ op).1 (journalStep σ op).2 = σ := by
  funext q
  cases op with
  | write p c =>
    simp only [journalStep, undoOp, restore_apply, fsWrite]
    by_cases h : q = p <;> simp [h]
  | delete p =>
    simp only [journalStep, undoOp]
    cases hp : σ p with
    | none =>
      simp only [fsDelete]
      by_cases h : q = p <;> simp [h, hp]
    | some b =>
      simp only [fsWrite, fsDelete]
      by_cases h : q = p <;> simp [h, hp]
  | rename f t =>
    simp only [journalStep, undoOp, restore_apply, fsRename]
    by_cases ht : q = t
    · simp [ht]
    · by_cases hf : q = f
      · have hft : ¬f = t := fun h => ht (hf.trans h)
        simp [ht, hf, hft]
      · simp [ht, hf]

theorem rollback_restores_aux (ops : List WsOp) :
    ∀ σ : FsState, rollbackList (journalRun σ ops).1 (journalRun σ ops).2 = σ := by
  induction ops with
  | nil => intro σ; rfl
  | cons op rest ih =>
    intro σ
    simp only [journalRun, rollbackList]
    rw [ih (journalStep σ op).1]
    exact undo_step σ op

/-- C1: for every finite sequence of write/delete/rename operations
performed through a `JournalWorkspace` over a base workspace, `rollback()`
followed by a read of any path (in particular each touched path)
reproduces that path's pre-attempt state: the same bytes if it existed
before, absence if it did not. -/
theorem journal_rollback_restores (σ : FsState) (ops : List WsOp) (p : String) :
    rollbackList (journalRun σ ops).1 (journalRun σ ops).2 p = σ p := by
  rw [rollback_restores_aux ops σ]

/-! ## Rollback over a fallible base (src/unnamed/part_017, `rollback`)

The base workspace is an arbitrary `WorkspacePort`, so its calls may
reject.  We model a family of bases whose operations fail on designated
paths (a failed call leaves the state unchanged, as the journal replay
observes it). -/

/-- Which base-workspace calls reject, by path. -/
structure FailSpec where
  failWrite : String → Bool
  failDelete : String → Bool
  failRename : String → String → Bool

def bWrite (fs : FailSpec) (σ : FsState) (p : String) (c : Bytes) : Except Unit FsState :=
  if fs.failWrite p then .error () else .ok (fsWrite σ p c)

def bDelete (fs : FailSpec) (σ : FsState) (p : String) : Except Unit FsState :=
  if fs.failDelete p then .error () else .ok (fsDelete σ p)

def bRename (fs : FailSpec) (σ : FsState) (f t : String) : Except Unit FsState :=
  if fs.failRename f t then .error () else .ok (fsRename σ f t)

/-- `.catch(() => {})` applied to a base call: on failure the state is
left as it was. -/
def caught (r : Except Unit FsState) (σ : FsState) : FsState :=
  match r with
  | .ok σ' => σ'
  | .error _ => σ

/-- `restore` against the fallible base, uncaught (the `write` and
`delete` branches of `rollback()` do not attach `.catch`). -/
def restoreE (fs : FailSpec) (σ : FsState) (p : String) : Option Bytes → Except Unit FsState
  | none => bDelete fs σ p
  | some b => bWrite fs σ p b

/-- Undo one journal entry against the fallible base, mirroring the
control flow of `rollback()`: the `rename` branch wraps each of its three
base calls in `.catch(() => {})`; the `write` and `delete` branches do
not, so their failures propagate. -/
def undoOpE (fs : FailSpec) (σ : FsState) : JournalOp → Except Unit FsState
  | .write p before => restoreE fs σ p before
  | .delete p before =>
    match before with
    | none => .ok σ
    | some b => bWrite fs σ p b
  | .rename f t bf bt =>
    let σ1 := caught (bRename fs σ t f) σ
    let σ2 := caught (restoreE fs σ1 f bf) σ1
    let σ3 := caught (restoreE fs σ2 t bt) σ2
    .ok σ3

/-- `rollback()` over the fallible base: entries are undone last-first and
an uncaught rejection aborts the replay. -/
def rollbackListE (fs : FailSpec) (σ : FsState) : List JournalOp → Except Unit FsState
  | [] => .ok σ
  | e :: rest => do
    let σ' ← rollbackListE fs σ rest
    undoOpE fs σ' e

/-- A base with one rejecting `deletePath` path. -/
def failDeleteX : FailSpec :=
  { failWrite := fun _ => false
    failDelete := fun p => p == "x"
    failRename := fun _ _ => false }

/-- The empty base state. -/
def σ0 : FsState := fun _ => none

/-- C7 counterexample: a journal holding a single `write` entry whose
`before` is `null` makes `rollback()` call `base.deletePath` without a
`.catch`; when that call rejects, `rollback()` itself rejects instead of
swallowing the error, contradicting the claim that the best-effort unwind
always completes without throwing. -/
theorem rollback_throws_on_delete_failure :
    rollbackListE failDeleteX σ0 [JournalOp.write "x" none] = .error () := by
  rfl

/-- A journal entry whose undo makes no uncaught base call that can fail:
`rename` entries are always safe (all their calls are caught); `write`
and `delete` entries are safe when the single base call their undo makes
does not reject. -/
def entrySafe (fs : FailSpec) : JournalOp → Prop
  | .write p none => fs.failDelete p = false
  | .write p (some _) => fs.failWrite p = false
  | .delete _ none => True
  | .delete p (some _) => fs.failWrite p = false
  | .rename _ _ _ _ => True

instance (fs : FailSpec) (e : JournalOp) : Decidable (entrySafe fs e) := by
  cases e with
  | write p before => cases before <;> simp [entrySafe] <;> infer_instance
  | delete p before => cases before <;> simp [entrySafe] <;> infer_instance
  | rename f t bf bt => simp [entrySafe]; infer_instance

theorem undoOpE_safe (fs : FailSpec) (σ : FsState) (e : JournalOp)
    (h : entrySafe fs e) : ∃ σ', undoOpE fs σ e = .ok σ' := by
  cases e with
  | write p before =>
    cases before with
    | none =>
      simp only [entrySafe] at h
      exact ⟨fsDelete σ p, by simp [undoOpE, restoreE, bDelete, h]⟩
    | some b =>
      simp only [entrySafe] at h
      exact ⟨fsWrite σ p b, by simp [undoOpE, restoreE, bWrite, h]⟩
  | delete p before =>
    cases before with
    | none => exact ⟨σ, rfl⟩
    | some b =>
      simp only [entrySafe] at h
      exact ⟨fsWrite σ p b, by simp [undoOpE, bWrite, h]⟩
  | rename f t bf bt => exact ⟨_, rfl⟩

/-- C7 amended: `rollback()` swallows base-call errors only while undoing
`rename` entries (each of those calls carries `.catch`); the single base
call made to undo a `write` or `delete` entry is uncaught, so the replay
completes without throwing exactly when those calls do not reject —
`rename`-undo failures never abort it. -/
theorem rollback_ok_of_entries_safe (fs : FailSpec) (σ : FsState)
    (J : List JournalOp) (h : ∀ e ∈ J, entrySafe fs e) :
    ∃ σ', rollbackListE fs σ J = .ok σ' := by
  induction J with
  | nil => exact ⟨σ, rfl⟩
  | cons e rest ih =>
    obtain ⟨σ', hσ'⟩ := ih (fun x hx => h x (List.mem_cons_of_mem _ hx))
    obtain ⟨σ'', hσ''⟩ := undoOpE_safe fs σ' e (h e (List.mem_cons_self _ _))
    refine ⟨σ'', ?_⟩
    have hstep : rollbackListE fs σ (e :: rest) =
        Except.bind (rollbackListE fs σ rest) (fun τ => undoOpE fs τ e) := rfl
    rw [hstep, hσ']
    exact hσ''

/-- An always-failing rename base: every `renamePath` call rejects, only
`rename` journal entries are replayed, and `rollback()` still succeeds. -/
def failAllRenames : FailSpec :=
  { failWrite := fun _ => false
    failDelete := fun _ => false
    failRename := fun _ _ => true }

/-- Witness for the amended C7 theorem at a concrete journal: a `rename`
entry whose rename-back call rejects plus a safe `write` entry. -/
theorem rollback_ok_of_entries_safe_witness :
    (∀ e ∈ [JournalOp.rename "a" "b" none (some [1]), JournalOp.write "c" (some [2])],
        entrySafe failAllRenames e) ∧
      ∃ σ', rollbackListE failAllRenames σ0
          [JournalOp.rename "a" "b" none (some [1]), JournalOp.write "c" (some [2])] = .ok σ' := by
  refine ⟨by decide, ?_⟩
  exact rollback_ok_of_entries_safe failAllRenames σ0 _ (by decide)

/-! ## Preview workspace (src/src/workspaces/preview-workspace.ts) -/

/-- JS `Map.set`: update in place (keeping insertion position) when the
key is present, otherwise append at the end. -/
def mapSet {α : Type} (m : List (String × α)) (k : String) (v : α) : List (String × α) :=
  if m.any (fun kv => kv.1 == k) then
    m.map (fun kv => if kv.1 == k then (k, v) else kv)
  else m ++ [(k, v)]

/-- An overlay entry of the preview workspace. -/
inductive OverlayEntry where
  | write (bytes : Bytes) (existedBefore : Bool) (path : String)
  | delete (existedBefore : Bool) (path : String)
  | rename (fromPath toPath : String) (existedBefore : Bool)
deriving DecidableEq

/-- The preview workspace: the wrapped base and the insertion-ordered
overlay map. -/
structure PState where
  base : FsState
  overlay : List (String × OverlayEntry)

/-- A mutating request made through the preview workspace. -/
inductive PrevOp where
  | write (path : String) (contents : Bytes)
  | delete (path : String)
  | rename (fromPath toPath : String)
deriving DecidableEq

/-- `writeFile`/`deletePath`/`renamePath` on the preview: consult
`base.stat` for `existedBefore` and record the entry in the overlay
(rename under the composite key); the base is not called to mutate. -/
def pApply (s : PState) : PrevOp → PState
  | .write p c => { s with overlay := mapSet s.overlay p (.write c (s.base p).isSome p) }
  | .delete p => { s with overlay := mapSet s.overlay p (.delete (s.base p).isSome p) }
  | .rename f t =>
    { s with overlay := mapSet s.overlay (f ++ "→" ++ t) (.rename f t (s.base f).isSome) }

/-- A sequence of preview mutations. -/
def pRun (s : PState) : List PrevOp → PState
  | [] => s
  | op :: rest => pRun (pApply s op) rest

/-- `readFile` on the preview: a pending write returns its bytes, a
pending delete throws, otherwise the base is read (absent paths throw). -/
def pReadFile (s : PState) (p : String) : Except Unit Bytes :=
  match List.lookup p s.overlay with
  | some (.write c _ _) => .ok c
  | some (.delete _ _) => .error ()
  | _ =>
    match s.base p with
    | some b => .ok b
    | none => .error ()

/-- `discard()`: clear the overlay, never touching the base. -/
def pDiscard (s : PState) : PState := { s with overlay := [] }

/-- A mutating call on the base workspace, as observed during `commit()`. -/
inductive BaseCall where
  | write (path : String) (contents : Bytes)
  | delete (path : String)
  | rename (fromPath toPath : String)
deriving DecidableEq

/-- First `commit()` loop: apply (only) the rename entries. -/
def commitRenamePass (acc : FsState × List BaseCall) (kv : String × OverlayEntry) :
    FsState × List BaseCall :=
  match kv.2 with
  | .rename f t _ => (fsRename acc.1 f t, acc.2 ++ [.rename f t])
  | _ => acc

/-- Second `commit()` loop: apply write and delete entries in overlay
order. -/
def commitWritePass (acc : FsState × List BaseCall) (kv : String × OverlayEntry) :
    FsState × List BaseCall :=
  match kv.2 with
  | .write c _ p => (fsWrite acc.1 p c, acc.2 ++ [.write p c])
  | .delete _ p => (fsDelete acc.1 p, acc.2 ++ [.delete p])
  | _ => acc

/-- `commit()`: one pass over the overlay applying renames, then one pass
applying writes and deletes, then clear the overlay.  Also returns the
trace of base calls in invocation order. -/
def pCommit (s : PState) : PState × List BaseCall :=
  let step1 := s.overlay.foldl commitRenamePass (s.base, [])
  let step2 := s.overlay.foldl commitWritePass step1
  (⟨step2.1, []⟩, step2.2)

/-- The rename calls of an overlay, in insertion order. -/
def renameCalls (ov : List (String × OverlayEntry)) : List BaseCall :=
  ov.filterMap fun kv =>
    match kv.2 with
    | .rename f t _ => some (.rename f t)
    | _ => none

/-- The write calls of an overlay, in insertion order. -/
def writeCalls (ov : List (String × OverlayEntry)) : List BaseCall :=
  ov.filterMap fun kv =>
    match kv.2 with
    | .write c _ p => some (.write p c)
    | _ => none

/-- The delete calls of an overlay, in insertion order. -/
def deleteCalls (ov : List (String × OverlayEntry)) : List BaseCall :=
  ov.filterMap fun kv =>
    match kv.2 with
    | .delete _ p => some (.delete p)
    | _ => none

/-- The write and delete calls of an overlay, interleaved in insertion
order. -/
def wdCalls (ov : List (String × OverlayEntry)) : List BaseCall :=
  ov.filterMap fun kv =>
    match kv.2 with
    | .write c _ p => some (.write p c)
    | .delete _ p => some (.delete p)
    | _ => none

/-- The commit order the claim describes: all renames, then all writes,
then all deletes, grouped by kind. -/
def claimCommitTrace (ov : List (String × OverlayEntry)) : List BaseCall :=
  renameCalls ov ++ writeCalls ov ++ deleteCalls ov

theorem pApply_base (s : PState) (op : PrevOp) : (pApply s op).base = s.base := by
  cases op <;> rfl

theorem pRun_base (s : PState) (ops : List PrevOp) : (pRun s ops).base = s.base := by
  induction ops generalizing s with
  | nil => rfl
  | cons op rest ih => rw [pRun, ih, pApply_base]

/-- C2: mutations through a `PreviewWorkspace` never change the base
before `commit()`; `discard()` also leaves the base unchanged; and
`readFile` through the preview returns the pending write bytes for a path
whose overlay entry is a write, while a pending delete makes the read
fail. -/
theorem preview_isolation (s : PState) (ops : List PrevOp) (p : String) :
    (pRun s ops).base = s.base ∧
      (pDiscard (pRun s ops)).base = s.base ∧
      (match List.lookup p (pRun s ops).overlay with
        | some (.write c _ _) => pReadFile (pRun s ops) p = .ok c
        | some (.delete _ _) => pReadFile (pRun s ops) p = .error ()
        | _ => True) := by
  refine ⟨pRun_base s ops, ?_, ?_⟩
  · rw [pDiscard]
    exact pRun_base s ops
  · cases heq : List.lookup p (pRun s ops).overlay with
    | none => simp
    | some e =>
      cases e with
      | write c ex pp => simp [pReadFile, heq]
      | delete ex pp => simp [pReadFile, heq]
      | rename f t ex => simp

theorem foldl_renamePass_trace (ov : List (String × OverlayEntry)) :
    ∀ (σ : FsState) (tr : List BaseCall),
      (ov.foldl commitRenamePass (σ, tr)).2 = tr ++ renameCalls ov := by
  induction ov with
  | nil => intro σ tr; simp [renameCalls]
  | cons kv rest ih =>
    intro σ tr
    cases h : kv.2 <;>
      simp [List.foldl_cons, commitRenamePass, h, renameCalls, List.filterMap_cons, ih]

theorem foldl_writePass_trace (ov : List (String × OverlayEntry)) :
    ∀ (σ : FsState) (tr : List BaseCall),
      (ov.foldl commitWritePass (σ, tr)).2 = tr ++ wdCalls ov := by
  induction ov with
  | nil => intro σ tr; simp [wdCalls]
  | cons kv rest ih =>
    intro σ tr
    cases h : kv.2 <;>
      simp [List.foldl_cons, commitWritePass, h, wdCalls, List.filterMap_cons, ih]

/-- C6 counterexample: with a pending delete of `"a"` recorded before a
pending write of `"b"`, `commit()` invokes `deletePath("a")` before
`writeFile("b")`, whereas the claim's grouped order would put every write
before every delete. -/
theorem commit_order_counterexample :
    (pCommit (pRun ⟨σ0, []⟩ [PrevOp.delete "a", PrevOp.write "b" [1]])).2 ≠
      claimCommitTrace (pRun ⟨σ0, []⟩ [PrevOp.delete "a", PrevOp.write "b" [1]]).overlay := by
  decide

/-- C6 amended: `commit()` applies the pending operations to the base in
two passes over the overlay: all renames first (in insertion order), then
the writes and deletes interleaved in overlay insertion order — not
writes grouped before deletes. -/
theorem commit_trace_renames_then_writes_deletes (s : PState) :
    (pCommit s).2 = renameCalls s.overlay ++ wdCalls s.overlay := by
  have h1 := foldl_renamePass_trace s.overlay s.base []
  have h2 := foldl_writePass_trace s.overlay
      (s.overlay.foldl commitRenamePass (s.base, [])).1
      (s.overlay.foldl commitRenamePass (s.base, [])).2
  simp only [pCommit]
  rw [h2, h1]
  simp

/-! ## Circuit breaker (src/src/routing/circuit-breaker.ts) -/

/-- The breaker options (ms values as naturals). -/
structure BreakerOpts where
  failureThreshold : Nat
  baseCooldownMs : Nat
  maxCooldownMs : Nat
deriving DecidableEq

/-- The defaults applied by the constructor. -/
def defaultBreakerOpts : BreakerOpts :=
  { failureThreshold := 2, baseCooldownMs := 5 * 60000, maxCooldownMs := 60 * 60000 }

/-- One per-ref entry. -/
structure BreakerEntry where
  consecutiveFailures : Nat
  lastFailureAt : Option Nat
  openUntil : Option Nat
deriving DecidableEq

/-- `recordFailure`: increment the consecutive-failure count; once the
count reaches the threshold, open with cooldown
`min(maxCooldownMs, baseCooldownMs * 2 ^ (count - threshold))`. -/
def recordFailure (o : BreakerOpts) (e : BreakerEntry) (now : Nat) : BreakerEntry :=
  let cf := e.consecutiveFailures + 1
  let opened := o.failureThreshold ≤ cf
  let openExponent := cf - o.failureThreshold
  let cooldown :=
    if opened then min o.maxCooldownMs (o.baseCooldownMs * 2 ^ openExponent) else 0
  { consecutiveFailures := cf
    lastFailureAt := some now
    openUntil := if opened then some (now + cooldown) else e.openUntil }

/-- `recordSuccess`: the entry is replaced by `{consecutiveFailures: 0}`. -/
def recordSuccess : BreakerEntry :=
  { consecutiveFailures := 0, lastFailureAt := none, openUntil := none }

/-- `isOpen`: the entry has an `openUntil` in the future. -/
def isOpenEntry (e : BreakerEntry) (now : Nat) : Bool :=
  match e.openUntil with
  | some u => now < u
  | none => false

/-- C3: with threshold `f ≥ 1` and `0 < base ≤ max`, the failure that
brings the consecutive count from `f - 1 + k` to `f + k` (the
`(f+k)`-th consecutive failure, `k ≥ 0`) opens the entry with
`openUntil = now + min(max, base * 2 ^ k)` — in particular
`now + base` when `k = 0` — and a subsequent `recordSuccess` resets the
entry to zero consecutive failures and a closed circuit. -/
theorem breaker_transitions (o : BreakerOpts) (e : BreakerEntry) (now k : Nat)
    (hthr : 1 ≤ o.failureThreshold)
    (hbase : 0 < o.baseCooldownMs)
    (hle : o.baseCooldownMs ≤ o.maxCooldownMs)
    (hcf : e.consecutiveFailures = o.failureThreshold - 1 + k) :
    (recordFailure o e now).consecutiveFailures = o.failureThreshold + k ∧
      (recordFailure o e now).openUntil =
        some (now + min o.maxCooldownMs (o.baseCooldownMs * 2 ^ k)) ∧
      (k = 0 → (recordFailure o e now).openUntil = some (now + o.baseCooldownMs)) ∧
      isOpenEntry (recordFailure o e now) now = true ∧
      recordSuccess.consecutiveFailures = 0 ∧
      (∀ t : Nat, isOpenEntry recordSuccess t = false) := by
  have hcf1 : e.consecutiveFailures + 1 = o.failureThreshold + k := by omega
  have hopened : o.failureThreshold ≤ e.consecutiveFailures + 1 := by omega
  have hexp : e.consecutiveFailures + 1 - o.failureThreshold = k := by omega
  refine ⟨?_, ?_, ?_, ?_, rfl, fun t => rfl⟩
  · simp [recordFailure, hcf1]
  · simp [recordFailure, hopened, hexp]
  · intro hk
    subst hk
    simp [recordFailure, hopened, hexp, Nat.min_eq_right hle]
  · have hcool : 0 < min o.maxCooldownMs (o.baseCooldownMs * 2 ^ k) := by
      have h2 : 0 < o.baseCooldownMs * 2 ^ k :=
        Nat.mul_pos hbase (Nat.pos_pow_of_pos k (by norm_num))
      exact lt_min (lt_of_lt_of_le hbase hle) h2
    simp [recordFailure, isOpenEntry, hopened, hexp]
    omega

/-- Witness for `breaker_transitions` at the default options, starting
from an entry one failure short of the threshold. -/
theorem breaker_transitions_witness :
    (1 ≤ defaultBreakerOpts.failureThreshold ∧
        0 < defaultBreakerOpts.baseCooldownMs ∧
        defaultBreakerOpts.baseCooldownMs ≤ defaultBreakerOpts.maxCooldownMs ∧
        (1 : Nat) = defaultBreakerOpts.failureThreshold - 1 + 0) ∧
      ((recordFailure defaultBreakerOpts ⟨1, none, none⟩ 5000).consecutiveFailures =
          defaultBreakerOpts.failureThreshold + 0 ∧
        (recordFailure defaultBreakerOpts ⟨1, none, none⟩ 5000).openUntil =
          some (5000 + min defaultBreakerOpts.maxCooldownMs
            (defaultBreakerOpts.baseCooldownMs * 2 ^ 0)) ∧
        (0 = 0 → (recordFailure defaultBreakerOpts ⟨1, none, none⟩ 5000).openUntil =
          some (5000 + defaultBreakerOpts.baseCooldownMs)) ∧
        isOpenEntry (recordFailure defaultBreakerOpts ⟨1, none, none⟩ 5000) 5000 = true ∧
        recordSuccess.consecutiveFailures = 0 ∧
        (∀ t : Nat, isOpenEntry recordSuccess t = false)) :=
  ⟨by decide,
    breaker_transitions defaultBreakerOpts ⟨1, none, none⟩ 5000 0
      (by decide) (by decide) (by decide) (by decide)⟩

/-! ## Tool executor (src/src/tools/tool-executor.ts) -/

/-- A thrown JS error, carrying `.message` and its `String(e)` form. -/
structure JsError where
  message : String
  asString : String
deriving DecidableEq

/-- `(e as Error).message || String(e)`. -/
def errText (e : JsError) : String :=
  if e.message = "" then e.asString else e.message

/-- A registered tool: name plus its (possibly throwing) `execute`.
Args and results are opaque strings at this layer. -/
structure ToolDef where
  name : String
  execute : String → Except JsError String

/-- `ToolResult` as returned to the provider loop. -/
structure ToolResult where
  id : String
  toolName : String
  result : String
  isError : Bool
deriving DecidableEq

/-- A tool-policy decision. -/
inductive PolicyDecision where
  | allow
  | deny (reason : String)
  | ask (reason : String)
deriving DecidableEq

/-- The failures `executeFromProvider` can raise. -/
inductive ExecError where
  | toolDenied (toolName reason : String)
  | toolCancelled (toolName : String)
deriving DecidableEq

/-- The executor's collaborators: the registered tools (later
registrations overwrite earlier ones, as with `Map.set`), the policy, the
controller's aborted flag, and the value each approval future resolves
to. -/
structure ExecEnv where
  tools : List ToolDef
  policy : ToolDef → String → PolicyDecision
  aborted : Bool
  approvalResult : String → Bool

/-- The `byName` registry built in the constructor. -/
def byName (tools : List ToolDef) : List (String × ToolDef) :=
  tools.foldl (fun m t => mapSet m t.name t) []

/-- Invoke `tool.execute` and wrap the outcome: a thrown failure becomes
`ToolResult{isError: true, result: message}` instead of propagating. -/
def runTool (tool : ToolDef) (args callId : String) : Except ExecError ToolResult :=
  match tool.execute args with
  | .ok r => .ok ⟨callId, tool.name, r, false⟩
  | .error e => .ok ⟨callId, tool.name, errText e, true⟩

/-- `executeFromProvider(toolName, args, callId)`: unknown tool → denied;
guard against cancellation; `deny` → raise `ToolDenied`; `ask` → await
approval, false → raise `ToolDenied`; then execute with failures
contained. -/
def executeFromProvider (env : ExecEnv) (toolName args callId : String) :
    Except ExecError ToolResult :=
  match List.lookup toolName (byName env.tools) with
  | none => .error (.toolDenied toolName "Unknown tool")
  | some tool =>
    if env.aborted then .error (.toolCancelled tool.name)
    else
      match env.policy tool args with
      | .deny reason => .error (.toolDenied tool.name reason)
      | .ask _ =>
        if env.approvalResult callId then runTool tool args callId
        else .error (.toolDenied tool.name "User denied tool call")
      | .allow => runTool tool args callId

/-- C4: for a registered tool on a non-cancelled controller, when
`tool.execute` raises, `executeFromProvider` does not propagate the
failure but returns `ToolResult{id: callId, toolName, isError: true,
result: the error message}` (on an `allow` decision or a granted `ask`);
by contrast a policy `deny` decision or a denied approval makes
`executeFromProvider` raise `ToolDenied`. -/
theorem executor_contains_tool_failures (env : ExecEnv) (toolName args callId : String)
    (tool : ToolDef) (e : JsError)
    (hlookup : List.lookup toolName (byName env.tools) = some tool)
    (habort : env.aborted = false)
    (hexec : tool.execute args = .error e) :
    (env.policy tool args = .allow →
        executeFromProvider env toolName args callId =
          .ok ⟨callId, tool.name, errText e, true⟩) ∧
      (∀ r, env.policy tool args = .ask r → env.approvalResult callId = true →
        executeFromProvider env toolName args callId =
          .ok ⟨callId, tool.name, errText e, true⟩) ∧
      (∀ r, env.policy tool args = .deny r →
        executeFromProvider env toolName args callId =
          .error (.toolDenied tool.name r)) ∧
      (∀ r, env.policy tool args = .ask r → env.approvalResult callId = false →
        executeFromProvider env toolName args callId =
          .error (.toolDenied tool.name "User denied tool call")) := by
  refine ⟨?_, ?_, ?_, ?_⟩
  · intro hpol
    simp [executeFromProvider, hlookup, habort, hpol, runTool, hexec]
  · intro r hpol happ
    simp [executeFromProvider, hlookup, habort, hpol, happ, runTool, hexec]
  · intro r hpol
    simp [executeFromProvider, hlookup, habort, hpol]
  · intro r hpol happ
    simp [executeFromProvider, hlookup, habort, hpol, happ]

/-- A concrete tool whose `execute` always throws. -/
def boomTool : ToolDef :=
  { name := "boom", execute := fun _ => .error ⟨"kaput", "Error: kaput"⟩ }

/-- A concrete environment registering `boomTool` under an allow-all
policy with no cancellation. -/
def boomEnv : ExecEnv :=
  { tools := [boomTool]
    policy := fun _ _ => .allow
    aborted := false
    approvalResult := fun _ => true }

/-- Witness for `executor_contains_tool_failures` on `boomEnv`. -/
theorem executor_contains_tool_failures_witness :
    (List.lookup "boom" (byName boomEnv.tools) = some boomTool ∧
        boomEnv.aborted = false ∧
        boomTool.execute "{}" = .error ⟨"kaput", "Error: kaput"⟩) ∧
      ((boomEnv.policy boomTool "{}" = .allow →
          executeFromProvider boomEnv "boom" "{}" "call-1" =
            .ok ⟨"call-1", boomTool.name, errText ⟨"kaput", "Error: kaput"⟩, true⟩) ∧
        (∀ r, boomEnv.policy boomTool "{}" = .ask r →
            boomEnv.approvalResult "call-1" = true →
          executeFromProvider boomEnv "boom" "{}" "call-1" =
            .ok ⟨"call-1", boomTool.name, errText ⟨"kaput", "Error: kaput"⟩, true⟩) ∧
        (∀ r, boomEnv.policy boomTool "{}" = .deny r →
          executeFromProvider boomEnv "boom" "{}" "call-1" =
            .error (.toolDenied boomTool.name r)) ∧
        (∀ r, boomEnv.policy boomTool "{}" = .ask r →
            boomEnv.approvalResult "call-1" = false →
          executeFromProvider boomEnv "boom" "{}" "call-1" =
            .error (.toolDenied boomTool.name "User denied tool call"))) :=
  ⟨⟨rfl, rfl, rfl⟩,
    executor_contains_tool_failures boomEnv "boom" "{}" "call-1" boomTool
      ⟨"kaput", "Error: kaput"⟩ rfl rfl rfl⟩

/-! ## Run controller (src/src/core/run-controller.ts)

Pending promises are modelled by identity: pause-waiters by numeric ids in
FIFO order, approval futures by their `callId` key.  Resolutions are
returned as explicit lists (`(callId, value)` pairs for approvals). -/

/-- The controller state. -/
structure CState where
  aborted : Bool
  paused : Bool
  stopRequested : Bool
  pauseWaiters : List Nat
  approvals : List (String × Nat)
deriving DecidableEq

/-- The outcome of `requestApproval`: a promise resolved immediately, or
a pending future registered under the call id. -/
inductive ApprovalReply where
  | immediate (allowed : Bool)
  | pendingFuture
deriving DecidableEq

/-- `requestApproval(callId)`: `false` immediately when already
cancelled, otherwise register a pending future. -/
def requestApproval (s : CState) (callId : String) (now : Nat) : CState × ApprovalReply :=
  if s.aborted then (s, .immediate false)
  else ({ s with approvals := mapSet s.approvals callId now }, .pendingFuture)

/-- `resume()`: unset `paused` and release every pause-waiter (the
spliced list, in FIFO order). -/
def resume (s : CState) : CState × List Nat :=
  ({ s with paused := false, pauseWaiters := [] }, s.pauseWaiters)

/-- `cancel(reason?)`: abort the token, release the pause-waiters via
`resume()`, then resolve every pending approval as `false` and clear the
map.  Returns the released waiters and the approval resolutions. -/
def cancel (s : CState) : CState × List Nat × List (String × Bool) :=
  let s1 : CState := { s with aborted := true }
  let r := resume s1
  ({ r.1 with approvals := [] }, r.2, s.approvals.map (fun kv => (kv.1, false)))

/-- C5: `requestApproval` after `cancel()` resolves to `false`
immediately (registering nothing); and `cancel()` resolves exactly the
approvals pending at that moment — each to `false` — empties the pending
map, and releases every pause-waiter, so no approval future remains
unresolved after cancel. -/
theorem cancel_resolves_approvals (s : CState) (callId : String) (now : Nat) :
    requestApproval (cancel s).1 callId now = ((cancel s).1, .immediate false) ∧
      (cancel s).2.2 = s.approvals.map (fun kv => (kv.1, false)) ∧
      (∀ kv ∈ s.approvals, (kv.1, false) ∈ (cancel s).2.2) ∧
      (cancel s).1.approvals = [] ∧
      (cancel s).2.1 = s.pauseWaiters ∧
      (cancel s).1.pauseWaiters = [] := by
  refine ⟨rfl, rfl, ?_, rfl, rfl, rfl⟩
  intro kv hkv
  exact List.mem_map_of_mem _ hkv

/-! ## Tool name policy (src/unnamed/part_009) -/

/-- Membership in the legal tool-name character class `[A-Za-z0-9_-]`. -/
def isToolNameChar (c : Char) : Bool :=
  ('A' ≤ c && c ≤ 'Z') || ('a' ≤ c && c ≤ 'z') || ('0' ≤ c && c ≤ '9') ||
    c == '_' || c == '-'

/-- `String.prototype.trim()`: drop whitespace from both ends. -/
def trimChars (l : List Char) : List Char :=
  ((l.dropWhile Char.isWhitespace).reverse.dropWhile Char.isWhitespace).reverse

/-- `replace(/[^A-Za-z0-9_-]+/g, '_')`: each maximal run of illegal
characters becomes a single underscore.  The flag tracks whether the
previous character belonged to an illegal run. -/
def collapseAux : Bool → List Char → List Char
  | _, [] => []
  | inRun, c :: rest =>
    if isToolNameChar c then c :: collapseAux false rest
    else if inRun then collapseAux true rest
    else '_' :: collapseAux true rest

/-- `replace(/^_+|_+$/g, '')`: strip leading and trailing underscores. -/
def stripUnderscores (l : List Char) : List Char :=
  ((l.dropWhile (fun c => c == '_')).reverse.dropWhile (fun c => c == '_')).reverse

/-- `sanitizeToolName`: trim, collapse illegal runs, strip underscores,
truncate to 64, defaulting to `"tool"` when empty. -/
def sanitizeToolName (name : String) : String :=
  let trimmed := trimChars name.toList
  let replaced := stripUnderscores (collapseAux false trimmed)
  let shortened := replaced.take 64
  if shortened.isEmpty then "tool" else String.mk shortened

/-- The collision loop of `nextUnique`: try `_2`, `_3`, … suffixes,
truncating the candidate so the suffixed name stays within 64
characters.  The fuel mirrors the `i < 10_000` bound; on exhaustion the
source falls back to a timestamp-based name, modelled here by the bare
candidate (unreachable for the inputs considered). -/
def nextUniqueFrom (used : List String) (candidate : String) : Nat → Nat → String
  | 0, _ => candidate
  | fuel + 1, i =>
    let suffix := "_" ++ toString i
    let truncated := String.mk (candidate.toList.take (max 1 (64 - suffix.length))) ++ suffix
    if used.contains truncated then nextUniqueFrom used candidate fuel (i + 1)
    else truncated

/-- `nextUnique`: truncate the base to 64 (defaulting to `"tool"`), and
resolve collisions against the already-used provider names. -/
def nextUnique (used : List String) (base : String) : String :=
  let c0 := String.mk (base.toList.take 64)
  let candidate := if c0 = "" then "tool" else c0
  if used.contains candidate then nextUniqueFrom used candidate 9998 2
  else candidate

/-- The provider-facing names produced by `applyToolNamePolicy` under the
`sanitize` policy (no transform): sanitize each name in order, dedupe
against the used set, and record the result as used. -/
def applySanitizeNames (used : List String) : List String → List String
  | [] => []
  | n :: rest =>
    let pn := nextUnique used (sanitizeToolName n)
    pn :: applySanitizeNames (pn :: used) rest

/-- `isValidToolName`: the `^[A-Za-z0-9_-]{1,64}$` test. -/
def isValidToolName (s : String) : Bool :=
  decide (1 ≤ s.toList.length) && decide (s.toList.length ≤ 64) &&
    s.toList.all isToolNameChar

/-- The sanitisation rule exactly as the claim words it: replace each
character outside `[A-Za-z0-9_-]` with `_`, trim, truncate to 64. -/
def claimSanitize (s : String) : String :=
  String.mk ((trimChars (s.toList.map
    (fun c => if isToolNameChar c then c else '_'))).take 64)

/-- C8 counterexample: on the name `"a  b"` the code collapses the run of
two spaces to a single underscore, producing `"a_b"`, while per-character
replacement as claimed would produce `"a__b"`. -/
theorem sanitize_collapses_runs_counterexample :
    applySanitizeNames [] ["a  b"] ≠ [claimSanitize "a  b"] := by
  decide

theorem collapseAux_all (l : List Char) :
    ∀ (inRun : Bool), ∀ x ∈ collapseAux inRun l, isToolNameChar x = true := by
  induction l with
  | nil =>
    intro inRun x hx
    have h0 : collapseAux inRun [] = [] := by cases inRun <;> rfl
    rw [h0] at hx
    exact absurd hx (List.not_mem_nil x)
  | cons c rest ih =>
    intro inRun x hx
    by_cases hc : isToolNameChar c
    · simp only [collapseAux, hc, if_true, List.mem_cons] at hx
      rcases hx with h | h
      · rwa [h]
      · exact ih false x h
    · cases inRun with
      | true =>
        have h0 : collapseAux true (c :: rest) = collapseAux true rest := by
          simp [collapseAux, hc]
        rw [h0] at hx
        exact ih true x hx
      | false =>
        have h0 : collapseAux false (c :: rest) = '_' :: collapseAux true rest := by
          simp [collapseAux, hc]
        rw [h0] at hx
        rcases List.mem_cons.mp hx with h | h
        · rw [h]; decide
        · exact ih true x h

theorem stripUnderscores_subset (l : List Char) (x : Char) (hx : x ∈ stripUnderscores l) :
    x ∈ l := by
  simp only [stripUnderscores, List.mem_reverse] at hx
  have h1 := (List.dropWhile_sublist (l := (l.dropWhile (fun c => c == '_')).reverse)
    (p := fun c => c == '_')).subset hx
  rw [List.mem_reverse] at h1
  exact (List.dropWhile_sublist (l := l) (p := fun c => c == '_')).subset h1

/-- C8 amended: the sanitize policy replaces each maximal run of illegal
characters with a single `_` (`"a  b"` becomes `"a_b"`), strips
leading/trailing underscores, truncates to 64 characters (`"tool"` when
empty), resolves collisions by appending `_2`, `_3`, … within the
64-character budget — so `["foo bar", "foo_bar"]` yields
`["foo_bar", "foo_bar_2"]` — and every sanitized name matches
`^[A-Za-z0-9_-]{1,64}$`. -/
theorem sanitize_policy_amended :
    applySanitizeNames [] ["foo bar", "foo_bar"] = ["foo_bar", "foo_bar_2"] ∧
      sanitizeToolName "a  b" = "a_b" ∧
      ∀ s : String, isValidToolName (sanitizeToolName s) = true := by
  refine ⟨by decide, by decide, ?_⟩
  intro s
  rw [sanitizeToolName]
  by_cases h :
      ((stripUnderscores (collapseAux false (trimChars s.toList))).take 64).isEmpty
  · simp only [h, if_true]
    decide
  · simp only [h, if_false, Bool.false_eq_true]
    have hne : (stripUnderscores (collapseAux false (trimChars s.toList))).take 64 ≠ [] := by
      intro hnil
      rw [hnil] at h
      simp at h
    rw [isValidToolName]
    simp only [Bool.and_eq_true, decide_eq_true_eq]
    refine ⟨⟨?_, ?_⟩, ?_⟩
    · show 1 ≤ (String.mk _).toList.length
      exact List.length_pos.mpr hne
    · show (String.mk _).toList.length ≤ 64
      exact List.length_take_le 64 (stripUnderscores (collapseAux false (trimChars s.toList)))
    · rw [List.all_eq_true]
      intro x hx
      have hx1 : x ∈ stripUnderscores (collapseAux false (trimChars s.toList)) :=
        (List.take_sublist 64 _).subset hx
      exact collapseAux_all _ false x (stripUnderscores_subset _ x hx1)

/-! ## LRU cache (src/src/config/config-store.ts) -/

/-- A cache entry: the value and its absolute expiry time (ms), `null`
when the cache has no TTL. -/
structure LruEntry (V : Type) where
  value : V
  expiresAt : Option Nat
deriving DecidableEq

/-- The LRU cache: capacity, TTL, and the insertion-ordered map (oldest
first). -/
structure Lru (V : Type) where
  maxEntries : Nat
  ttlMs : Option Nat
  map : List (String × LruEntry V)

/-- The constructor: `maxEntries` is clamped to at least 1. -/
def lruNew (V : Type) (maxEntries : Nat) (ttlMs : Option Nat) : Lru V :=
  { maxEntries := max 1 maxEntries, ttlMs := ttlMs, map := [] }

/-- `Map.delete`. -/
def mapDelete {α : Type} (m : List (String × α)) (k : String) : List (String × α) :=
  m.filter (fun kv => !(kv.1 == k))

/-- `e.expiresAt !== null && now > e.expiresAt`. -/
def entryExpired {V : Type} (now : Nat) (e : LruEntry V) : Bool :=
  match e.expiresAt with
  | some x => decide (x < now)
  | none => false

/-- `pruneExpired`. -/
def pruneExpired {V : Type} (now : Nat) (m : List (String × LruEntry V)) :
    List (String × LruEntry V) :=
  m.filter (fun kv => !entryExpired now kv.2)

/-- The `while (size > maxEntries) delete oldest` loop of
`evictIfNeeded`. -/
def evictLoop {V : Type} (maxE : Nat) : List (String × LruEntry V) → List (String × LruEntry V)
  | [] => []
  | x :: xs => if maxE < xs.length + 1 then evictLoop maxE xs else x :: xs

/-- `set(key, value)` at time `now`: compute the expiry
(`ttlMs ? now + ttlMs : null` — a zero TTL is falsy), re-insert the key
at the end, then `evictIfNeeded` (prune expired, then evict oldest while
over capacity). -/
def lruSet {V : Type} (c : Lru V) (now : Nat) (k : String) (v : V) : Lru V :=
  let expiresAt : Option Nat :=
    match c.ttlMs with
    | some t => if t = 0 then none else some (now + t)
    | none => none
  let m1 := if c.map.any (fun kv => kv.1 == k) then mapDelete c.map k else c.map
  let m2 := m1 ++ [(k, ⟨v, expiresAt⟩)]
  { c with map := evictLoop c.maxEntries (pruneExpired now m2) }

/-- `get(key)` at time `now`: a hit past its expiry is removed and
reported missing; otherwise the entry is re-inserted at the end (LRU
refresh) and its value returned. -/
def lruGet {V : Type} (c : Lru V) (now : Nat) (k : String) : Lru V × Option V :=
  match List.lookup k c.map with
  | none => (c, none)
  | some e =>
    match e.expiresAt with
    | some x =>
      if x < now then ({ c with map := mapDelete c.map k }, none)
      else ({ c with map := mapDelete c.map k ++ [(k, e)] }, some e.value)
    | none => ({ c with map := mapDelete c.map k ++ [(k, e)] }, some e.value)

/-- A sequence of `set` operations. -/
def lruSetAll {V : Type} (c : Lru V) (now : Nat) : List (String × V) → Lru V
  | [] => c
  | (k, v) :: rest => lruSetAll (lruSet c now k v) now rest

theorem evictLoop_eq_drop {V : Type} (maxE : Nat) :
    ∀ m : List (String × LruEntry V), evictLoop maxE m = m.drop (m.length - maxE) := by
  intro m
  induction m with
  | nil => simp [evictLoop]
  | cons x xs ih =>
    by_cases h : maxE < xs.length + 1
    · rw [evictLoop, if_pos h, ih]
      have hlen : (x :: xs).length - maxE = (xs.length - maxE) + 1 := by
        simp only [List.length_cons]
        omega
      rw [hlen, List.drop_succ_cons]
    · rw [evictLoop, if_neg h]
      have hlen : (x :: xs).length - maxE = 0 := by
        simp only [List.length_cons]
        omega
      rw [hlen, List.drop_zero]

theorem lookup_none_of_not_mem {α : Type} (m : List (String × α)) (k : String)
    (h : k ∉ m.map Prod.fst) : List.lookup k m = none := by
  induction m with
  | nil => rfl
  | cons kv rest ih =>
    obtain ⟨k1, v1⟩ := kv
    simp only [List.map_cons, List.mem_cons] at h
    push_neg at h
    have hbeq : (k == k1) = false := beq_eq_false_iff_ne.mpr h.1
    simp [List.lookup, hbeq, ih h.2]

theorem lookup_isSome_of_mem {α : Type} (m : List (String × α)) (k : String)
    (h : k ∈ m.map Prod.fst) : (List.lookup k m).isSome = true := by
  induction m with
  | nil => simp at h
  | cons kv rest ih =>
    obtain ⟨k1, v1⟩ := kv
    by_cases hk : k = k1
    · have hbeq : (k == k1) = true := beq_iff_eq.mpr hk
      simp [List.lookup, hbeq]
    · have hbeq : (k == k1) = false := beq_eq_false_iff_ne.mpr hk
      simp only [List.map_cons, List.mem_cons] at h
      rcases h with h | h
      · exact absurd h hk
      · simp [List.lookup, hbeq, ih h]

theorem lruSet_fresh {V : Type} (c : Lru V) (now : Nat) (k : String) (v : V)
    (httl : c.ttlMs = none)
    (hfresh : k ∉ c.map.map Prod.fst)
    (hnone : ∀ kv ∈ c.map, (kv.2).expiresAt = none) :
    (lruSet c now k v).map = evictLoop c.maxEntries (c.map ++ [(k, ⟨v, none⟩)]) := by
  have hany : c.map.any (fun kv => kv.1 == k) = false := by
    rw [List.any_eq_false]
    intro kv hkv
    intro hbeq
    exact hfresh (by
      rw [List.mem_map]
      exact ⟨kv, hkv, (beq_iff_eq.mp hbeq).symm ▸ rfl⟩)
  have hprune : pruneExpired now (c.map ++ [(k, ⟨v, none⟩)]) = c.map ++ [(k, ⟨v, none⟩)] := by
    rw [pruneExpired, List.filter_eq_self]
    intro kv hkv
    rcases List.mem_append.mp hkv with h | h
    · rw [show entryExpired now kv.2 = false from by rw [entryExpired, hnone kv h]]
      rfl
    · rw [List.mem_singleton] at h
      rw [h]
      rfl
  simp only [lruSet, httl, hany, Bool.false_eq_true, if_false]
  rw [hprune]

theorem lruSet_keys {V : Type} (c : Lru V) (now : Nat) (k : String) (v : V)
    (httl : c.ttlMs = none)
    (hfresh : k ∉ c.map.map Prod.fst)
    (hnone : ∀ kv ∈ c.map, (kv.2).expiresAt = none) :
    (lruSet c now k v).map.map Prod.fst =
      (c.map.map Prod.fst ++ [k]).drop ((c.map.length + 1) - c.maxEntries) := by
  rw [lruSet_fresh c now k v httl hfresh hnone, evictLoop_eq_drop, List.map_drop]
  have h1 : (c.map ++ [(k, (⟨v, none⟩ : LruEntry V))]).length = c.map.length + 1 := by
    simp
  have h2 : (c.map ++ [(k, (⟨v, none⟩ : LruEntry V))]).map Prod.fst =
      c.map.map Prod.fst ++ [k] := by
    simp
  rw [h1, h2]

theorem lruSet_preserves {V : Type} (c : Lru V) (now : Nat) (k : String) (v : V)
    (httl : c.ttlMs = none)
    (hfresh : k ∉ c.map.map Prod.fst)
    (hnone : ∀ kv ∈ c.map, (kv.2).expiresAt = none) :
    (lruSet c now k v).ttlMs = none ∧
      (∀ kv ∈ (lruSet c now k v).map, (kv.2).expiresAt = none) ∧
      (lruSet c now k v).map.length ≤ c.maxEntries := by
  refine ⟨httl, ?_, ?_⟩
  · intro kv hkv
    rw [lruSet_fresh c now k v httl hfresh hnone, evictLoop_eq_drop] at hkv
    have hkv2 := List.drop_subset _ _ hkv
    rcases List.mem_append.mp hkv2 with h | h
    · exact hnone kv h
    · rw [List.mem_singleton] at h
      rw [h]
  · rw [lruSet_fresh c now k v httl hfresh hnone, evictLoop_eq_drop, List.length_drop]
    omega

theorem lruSetAll_keys {V : Type} (now : Nat) :
    ∀ (kvs : List (String × V)) (c : Lru V),
      c.ttlMs = none →
      (∀ kv ∈ c.map, (kv.2).expiresAt = none) →
      c.map.length ≤ c.maxEntries →
      (c.map.map Prod.fst ++ kvs.map Prod.fst).Nodup →
      (lruSetAll c now kvs).map.map Prod.fst =
        (c.map.map Prod.fst ++ kvs.map Prod.fst).drop
          ((c.map.length + kvs.length) - c.maxEntries) := by
  intro kvs
  induction kvs with
  | nil =>
    intro c _ _ h3 _
    simp [lruSetAll, Nat.sub_eq_zero_of_le h3]
  | cons kv rest ih =>
    intro c h1 h2 h3 h4
    obtain ⟨k, v⟩ := kv
    have hkeys_len : (c.map.map Prod.fst).length = c.map.length := List.length_map _ _
    have hfresh : k ∉ c.map.map Prod.fst := by
      rw [List.nodup_append] at h4
      intro hk
      exact h4.2.2 hk (by simp)
    obtain ⟨h1', h2', h3'⟩ := lruSet_preserves c now k v h1 hfresh h2
    have hkeys' := lruSet_keys c now k v h1 hfresh h2
    have hmax : (lruSet c now k v).maxEntries = c.maxEntries := rfl
    have hsub : ((c.map.map Prod.fst ++ [k]).drop ((c.map.length + 1) - c.maxEntries) ++
        rest.map Prod.fst).Sublist
        ((c.map.map Prod.fst ++ [k]) ++ rest.map Prod.fst) :=
      (List.drop_sublist _ _).append_right _
    have h4' : ((lruSet c now k v).map.map Prod.fst ++ rest.map Prod.fst).Nodup := by
      rw [hkeys']
      refine List.Nodup.sublist hsub ?_
      have : (c.map.map Prod.fst ++ [k]) ++ rest.map Prod.fst =
          c.map.map Prod.fst ++ (k, v).1 :: rest.map Prod.fst := by
        simp
      rw [this]
      simpa using h4
    have hres := ih (lruSet c now k v) h1' h2' (hmax ▸ h3') h4'
    simp only [lruSetAll]
    rw [hres, hkeys', hmax]
    have hlen' : (lruSet c now k v).map.length =
        (c.map.length + 1) - ((c.map.length + 1) - c.maxEntries) := by
      have := congrArg List.length hkeys'
      rw [List.length_map, List.length_drop] at this
      rw [this]
      simp [hkeys_len]
    rw [hlen']
    have hda : (c.map.length + 1) - c.maxEntries ≤ (c.map.map Prod.fst ++ [k]).length := by
      simp [hkeys_len]
    rw [← List.drop_append_of_le_length hda, List.drop_drop]
    have hshape : (c.map.map Prod.fst ++ [k]) ++ rest.map Prod.fst =
        c.map.map Prod.fst ++ ((k, v) :: rest).map Prod.fst := by
      simp
    rw [hshape]
    congr 1
    simp only [List.length_cons]
    omega

/-- C9: for an `LruCache` of capacity `C ≥ 1` with no TTL, after `C + K`
`set` operations on distinct keys (`K ≥ 1`) with no intervening `get`s,
the cache holds exactly the `C` newest keys in order — so the `K` oldest
keys are absent and the `C` newest are present; and a `get` on a key
whose entry is past its TTL expiry removes the entry and reports the key
missing. -/
theorem lru_eviction_and_ttl {V : Type} (Cp K now : Nat) (kvs : List (String × V))
    (c' : Lru V) (k' : String) (e' : LruEntry V) (x' now' : Nat)
    (hC : 1 ≤ Cp) (hK : 1 ≤ K)
    (hlen : kvs.length = Cp + K)
    (hnodup : (kvs.map Prod.fst).Nodup)
    (hlook : List.lookup k' c'.map = some e')
    (hexp : e'.expiresAt = some x') (hlt : x' < now') :
    (lruSetAll (lruNew V Cp none) now kvs).map.map Prod.fst =
        (kvs.map Prod.fst).drop K ∧
      (∀ k ∈ (kvs.map Prod.fst).take K,
        List.lookup k (lruSetAll (lruNew V Cp none) now kvs).map = none) ∧
      (∀ k ∈ (kvs.map Prod.fst).drop K,
        (List.lookup k (lruSetAll (lruNew V Cp none) now kvs).map).isSome = true) ∧
      lruGet c' now' k' = ({ c' with map := mapDelete c'.map k' }, none) := by
  have hmax : (lruNew V Cp none).maxEntries = Cp := by
    simp [lruNew, Nat.max_eq_right hC]
  have hkeys := lruSetAll_keys now kvs (lruNew V Cp none) rfl
    (by intro kv hkv; exact absurd hkv (List.not_mem_nil kv))
    (by simp [lruNew]) (by simpa [lruNew] using hnodup)
  have hk1 : (lruSetAll (lruNew V Cp none) now kvs).map.map Prod.fst =
      (kvs.map Prod.fst).drop K := by
    rw [hkeys, hmax]
    have hm : (lruNew V Cp none).map = [] := rfl
    rw [hm]
    simp only [List.length_nil, List.nil_append, Nat.zero_add]
    rw [hlen]
    congr 1
    omega
  have hdisj : ∀ k ∈ (kvs.map Prod.fst).take K, k ∉ (kvs.map Prod.fst).drop K := by
    have h := hnodup
    rw [← List.take_append_drop K (kvs.map Prod.fst), List.nodup_append] at h
    exact fun k hk => h.2.2 hk
  refine ⟨hk1, ?_, ?_, ?_⟩
  · intro k hk
    refine lookup_none_of_not_mem _ k ?_
    rw [hk1]
    exact hdisj k hk
  · intro k hk
    refine lookup_isSome_of_mem _ k ?_
    rw [hk1]
    exact hk
  · simp [lruGet, hlook, hexp, hlt]

/-- A 3-element write sequence used as the C9 witness. -/
def kvsW : List (String × Nat) := [("a", 1), ("b", 2), ("c", 3)]

/-- A one-entry cache whose entry is past its expiry at time 6. -/
def lruW : Lru Nat := ⟨1, none, [("k", ⟨7, some 5⟩)]⟩

/-- Witness for `lru_eviction_and_ttl`: capacity 2, three distinct
writes, and an expired-entry `get`. -/
theorem lru_eviction_and_ttl_witness :
    ((1 : Nat) ≤ 2 ∧ (1 : Nat) ≤ 1 ∧ kvsW.length = 2 + 1 ∧
        (kvsW.map Prod.fst).Nodup ∧
        List.lookup "k" lruW.map = some ⟨7, some 5⟩ ∧
        (⟨7, some 5⟩ : LruEntry Nat).expiresAt = some 5 ∧ (5 : Nat) < 6) ∧
      ((lruSetAll (lruNew Nat 2 none) 0 kvsW).map.map Prod.fst =
          (kvsW.map Prod.fst).drop 1 ∧
        (∀ k ∈ (kvsW.map Prod.fst).take 1,
          List.lookup k (lruSetAll (lruNew Nat 2 none) 0 kvsW).map = none) ∧
        (∀ k ∈ (kvsW.map Prod.fst).drop 1,
          (List.lookup k (lruSetAll (lruNew Nat 2 none) 0 kvsW).map).isSome = true) ∧
        lruGet lruW 6 "k" = ({ lruW with map := mapDelete lruW.map "k" }, none)) :=
  ⟨⟨by decide, by decide, by decide, by decide, rfl, rfl, by decide⟩,
    lru_eviction_and_ttl 2 1 0 kvsW lruW "k" ⟨7, some 5⟩ 5 6
      (by decide) (by decide) (by decide) (by decide) rfl rfl (by decide)⟩

/-! ## Event bus and async queue (src/src/core/event-bus.ts via
src/src/providers/ai-sdk/ai-sdk-embeddings.ts, src/unnamed/part_014) -/

/-- The async queue: buffered values, the number of pending `next()`
waiters (FIFO, identity irrelevant here), and the closed flag. -/
structure QState (E : Type) where
  buf : List E
  waiters : Nat
  closed : Bool
deriving DecidableEq

/-- `push(value)`: dropped when closed; otherwise hand the value to the
first waiter if any, else buffer it.  The second component reports the
value handed to a waiter, if any. -/
def qPush {E : Type} (q : QState E) (v : E) : QState E × Option E :=
  if q.closed then (q, none)
  else if 0 < q.waiters then ({ q with waiters := q.waiters - 1 }, some v)
  else ({ q with buf := q.buf ++ [v] }, none)

/-- `close(reason?)`: mark closed and complete every pending waiter with
`done`. -/
def qClose {E : Type} (q : QState E) : QState E :=
  if q.closed then q else { q with closed := true, waiters := 0 }

/-- The event bus: the underlying queue plus the subscribed hooks
(identified by id). -/
structure BusState (E : Type) where
  q : QState E
  hooks : List Nat
deriving DecidableEq

/-- `emit(ev)`: invoke every subscribed hook with the event
(fire-and-forget), then `q.push(ev)`.  Returns the new state, the hook
invocations made, and the value delivered to a queue waiter (if any). -/
def emit {E : Type} (b : BusState E) (ev : E) :
    BusState E × List (Nat × E) × Option E :=
  let hookCalls := b.hooks.map (fun h => (h, ev))
  let r := qPush b.q ev
  ({ b with q := r.1 }, hookCalls, r.2)

/-- `close(reason?)` on the bus: close the underlying queue. -/
def busClose {E : Type} (b : BusState E) : BusState E :=
  { b with q := qClose b.q }

theorem qClose_closed {E : Type} (q : QState E) : (qClose q).closed = true := by
  rw [qClose]
  by_cases h : q.closed
  · rw [if_pos h]; exact h
  · rw [if_neg h]

theorem qPush_closed {E : Type} (q : QState E) (v : E) (h : q.closed = true) :
    qPush q v = (q, none) := by
  rw [qPush, if_pos h]

/-- C10: an event emitted after `close()` still invokes every currently
subscribed hook with the event, yet is never delivered to any async
iterator: the push is dropped, so no waiter receives it and the buffer is
unchanged. -/
theorem emit_after_close (E : Type) (b : BusState E) (ev : E) :
    (emit (busClose b) ev).2.1 = b.hooks.map (fun h => (h, ev)) ∧
      (emit (busClose b) ev).2.2 = none ∧
      (emit (busClose b) ev).1 = busClose b := by
  have hq := qPush_closed (busClose b).q ev (qClose_closed b.q)
  refine ⟨rfl, ?_, ?_⟩
  · rw [emit]
    simp only [hq]
  · rw [emit]
    simp only [hq]

end UnifiedAgent
